import Mathlib

/-!
Shallow embedding of `hocine/imghash`, file `average.go` (package `imghash`).

The Go code computes an "average hash": the image is resized to 8×8 by an
external collaborator, a grayscale pass is applied, then `computeMean` averages
the red channel (uint32 arithmetic) and `computeHash` sets bit `i` of a uint64
when the `i`-th pixel (row-major) has red intensity strictly above the mean.

Machine integers are modelled as `Nat` with explicit `% 2^32` / `% 2^64`
where the fixed-width arithmetic of Go can wrap.
-/

namespace Imghash

/-- Result of the Go call `color.Color.RGBA()`: four channel intensities as
`uint32` values (the Go image library documents the range 0 to 65535).
Channels are modelled as `Nat`; every read reduces mod `2^32` (a uint32). -/
structure Pixel where
  r : Nat
  g : Nat
  b : Nat
  a : Nat

/-- Model of the Go interface `image.Image`: a bounding rectangle (`Bounds()`) together with the
per-coordinate accessor `At(x, y)`. -/
structure Image where
  minX : Int
  minY : Int
  maxX : Int
  maxY : Int
  At : Int → Int → Pixel

/-- The red channel of `img.At(x, y).RGBA()`, as the uint32 value Go reads
(`r, _, _, _ = img.At(x, y).RGBA()`). -/
def redAt (img : Image) (x y : Int) : Nat :=
  (img.At x y).r % 2 ^ 32

/-- Value of `rect.Max.X - rect.Min.X` clamped to the number of inner-loop iterations. -/
def width (img : Image) : Nat :=
  (img.maxX - img.minX).toNat

/-- Value of `rect.Max.Y - rect.Min.Y` clamped to the number of outer-loop iterations. -/
def height (img : Image) : Nat :=
  (img.maxY - img.minY).toNat

/-- The coordinates visited by the nested Go loops
`for y = rect.Min.Y; y < rect.Max.Y; y++ { for x = rect.Min.X; x < rect.Max.X; x++`
in visit order: row-major, `y` outer, `x` inner. -/
def coords (img : Image) : List (Int × Int) :=
  (List.range (height img)).flatMap (fun (j : Nat) =>
    (List.range (width img)).map (fun (i : Nat) =>
      (img.minX + (i : Int), img.minY + (j : Int))))

/-- Number of pixels visited by the loops. -/
def numPix (img : Image) : Nat :=
  (coords img).length

/-- The red intensities of the visited pixels, in visit order. -/
def reds (img : Image) : List Nat :=
  (coords img).map (fun p => redAt img p.1 p.2)

/-- Source function `Average.computeMean`:

```go
rect := img.Bounds()
w := rect.Max.X - rect.Min.X
h := rect.Max.Y - rect.Min.Y
c := uint32(w * h)
if c == 0 { return 0 }
for y ... { for x ... { r, _, _, _ = img.At(x, y).RGBA(); m += r } }
return m / c
```

`m` is a uint32 accumulator (wraps mod `2^32`); `uint32(w*h)` truncates the
(possibly negative) product to its low 32 bits; division truncates. -/
def computeMean (img : Image) : Nat :=
  let w : Int := img.maxX - img.minX
  let h : Int := img.maxY - img.minY
  let c : Nat := ((w * h) % (2 ^ 32 : Int)).toNat
  if c = 0 then 0
  else ((coords img).foldl (fun m p => (m + redAt img p.1 p.2) % 2 ^ 32) 0) / c

/-- One iteration of the `computeHash` loop body on the state `(value, bit)`:

```go
r, _, _, _ = img.At(x, y).RGBA()
if r > mean { value |= 1 << bit }
bit++
```

`value` and `bit` are uint64; in Go a left shift by 64 or more yields 0,
which `(1 <<< bit) % 2^64` reproduces, and `bit++` wraps mod `2^64`. -/
def bitStep (mean : Nat) (acc : Nat × Nat) (r : Nat) : Nat × Nat :=
  (if r > mean then acc.1 ||| ((1 <<< acc.2) % 2 ^ 64) else acc.1, (acc.2 + 1) % 2 ^ 64)

/-- Source function `Average.computeHash`: folds the loop body over the pixels in row-major
visit order, starting from `value = 0`, `bit = 0`, and returns `value`. -/
def computeHash (img : Image) (mean : Nat) : Nat :=
  ((coords img).foldl (fun acc p => bitStep mean acc (redAt img p.1 p.2)) (0, 0)).1

/-- Modelled from the spec: the `grayscale` helper of the repository is not under
`src/`; per the spec the reference behavior applies no luminance-weighted
conversion — the mean/hash stages read the red channel of the resized pixels
directly — so the stage is the identity on the image abstraction. -/
def grayscale (img : Image) : Image := img

/-- Source function `Average.Compute`, parametric in the external `resize` collaborator:

```go
img = resize(img, 8, 8)
img = grayscale(img)
mean := h.computeMean(img)
return h.computeHash(img, mean)
``` -/
def Compute (resize : Image → Nat → Nat → Image) (img : Image) : Nat :=
  let img := grayscale (resize img 8 8)
  computeHash img (computeMean img)

/-- Number of set bits among the 64 bit positions of a hash value. -/
def popCount64 (n : Nat) : Nat :=
  (List.range 64).countP (fun i => n.testBit i)

/-- Mathematical (unbounded) sum of the red intensities of the visited pixels,
following the description of the mean as the sum of the chosen channel over
all pixels; `computeMean` is compared against this sum. -/
def redSum (img : Image) : Nat :=
  (reds img).sum

/-- Bits contributed by the remaining pixels of the `computeHash` loop when the
bit counter currently stands at `b`: the value accumulator of the loop is the
bitwise or of its start value with this quantity. -/
def bitsOf (mean : Nat) : List Nat → Nat → Nat
  | [], _ => 0
  | r :: rs, b => (if r > mean then (1 <<< b) % 2 ^ 64 else 0) ||| bitsOf mean rs ((b + 1) % 2 ^ 64)

/-- Concrete 8×8 checkerboard: intensity 65535 on cells with odd coordinate
sum, intensity 0 elsewhere. -/
def cb : Image :=
  ⟨0, 0, 8, 8, fun x y => if (x + y) % 2 = 1 then ⟨65535, 65535, 65535, 65535⟩ else ⟨0, 0, 0, 0⟩⟩

/-- The checkerboard with the same red channel but different green, blue and
alpha channels. -/
def cbGreen : Image :=
  ⟨0, 0, 8, 8, fun x y => ⟨(cb.At x y).r, 12345, 54321, 11111⟩⟩

/-- Concrete 8×8 image with every channel of every pixel equal to 7. -/
def uni7 : Image :=
  ⟨0, 0, 8, 8, fun _ _ => ⟨7, 7, 7, 7⟩⟩

/-- Concrete image whose bounding rectangle has zero width (and height 5). -/
def emptyImg : Image :=
  ⟨0, 0, 0, 5, fun _ _ => ⟨3, 3, 3, 3⟩⟩

/-- Concrete 2×32769 image (65538 pixels), every red intensity 65535: the
red sum 65538 × 65535 overflows the uint32 accumulator. -/
def bigU : Image :=
  ⟨0, 0, 2, 32769, fun _ _ => ⟨65535, 65535, 65535, 65535⟩⟩

/-- Concrete 65538×1 image (65538 pixels), every red intensity 65535. -/
def bigW : Image :=
  ⟨0, 0, 65538, 1, fun _ _ => ⟨65535, 65535, 65535, 65535⟩⟩

/-- Concrete 8×8 image with every pixel intensity 5. -/
def flat8 : Image :=
  ⟨0, 0, 8, 8, fun _ _ => ⟨5, 5, 5, 5⟩⟩

/-- Concrete 100×50 image with every pixel intensity 5: same pixels as
`flat8` on the 8×8 window but different dimensions. -/
def flat100 : Image :=
  ⟨0, 0, 100, 50, fun _ _ => ⟨5, 5, 5, 5⟩⟩

/-- A resize collaborator used in witnesses: restricts the bounding rectangle
to the 8×8 window anchored at the origin, keeping the pixel accessor. -/
def cropResize (img : Image) (_ _ : Nat) : Image :=
  ⟨0, 0, 8, 8, img.At⟩

/-- Concrete 8×9 image: 72 pixels, more than the 64 hash bits. -/
def tall : Image :=
  ⟨0, 0, 8, 9, fun x y => if y < 8 then ⟨(9 + x).toNat, 0, 0, 0⟩ else ⟨77777, 0, 0, 0⟩⟩

/-- Concrete 8×8 image with the same red channel as the 8×8 crop of `flat100`
but different green, blue and alpha channels. -/
def flatG : Image :=
  ⟨0, 0, 8, 8, fun x y => ⟨(flat100.At x y).r, 999, 998, 997⟩⟩

/-- Flattening the nested row-major loops into a single index `k`: row `k / w`,
column `k % w`. -/
theorem range_flatMap_map {α : Type} (f : Nat → Nat → α) (w : Nat) :
    ∀ h : Nat, (List.range h).flatMap (fun j => (List.range w).map (fun i => f i j))
      = (List.range (h * w)).map (fun k => f (k % w) (k / w)) := by
  intro h
  induction h with
  | zero => simp
  | succ n ih =>
    rw [List.range_succ, List.flatMap_append, ih, Nat.succ_mul, List.range_add,
      List.map_append, List.map_map]
    congr 1
    · simp only [List.flatMap_cons, List.flatMap_nil, List.append_nil]
      apply List.map_congr_left
      intro i hi
      have hiw : i < w := List.mem_range.mp hi
      have hw : 0 < w := Nat.lt_of_le_of_lt (Nat.zero_le i) hiw
      simp only [Function.comp_apply]
      have h1 : (n * w + i) % w = i := by
        rw [Nat.mul_comm n w, Nat.mul_add_mod, Nat.mod_eq_of_lt hiw]
      have h2 : (n * w + i) / w = n := by
        rw [Nat.mul_comm n w, Nat.mul_add_div hw, Nat.div_eq_of_lt hiw, Nat.add_zero]
      rw [h1, h2]

/-- The visited coordinates, as a single row-major indexed list. -/
theorem coords_eq (img : Image) :
    coords img = (List.range (height img * width img)).map
      (fun k => (img.minX + ((k % width img : Nat) : Int),
                 img.minY + ((k / width img : Nat) : Int))) := by
  rw [coords]
  exact range_flatMap_map (fun i j => (img.minX + (i : Int), img.minY + (j : Int)))
    (width img) (height img)

/-- The loops visit `height * width` pixels. -/
theorem numPix_eq (img : Image) : numPix img = height img * width img := by
  rw [numPix, coords_eq, List.length_map, List.length_range]

/-- The red intensities in visit order, as a single row-major indexed list. -/
theorem reds_eq (img : Image) :
    reds img = (List.range (height img * width img)).map
      (fun k => redAt img (img.minX + ((k % width img : Nat) : Int))
                         (img.minY + ((k / width img : Nat) : Int))) := by
  rw [reds, coords_eq, List.map_map]
  rfl

/-- Every visited coordinate lies inside the bounding rectangle. -/
theorem mem_coords {img : Image} {p : Int × Int} (hp : p ∈ coords img) :
    img.minX ≤ p.1 ∧ p.1 < img.maxX ∧ img.minY ≤ p.2 ∧ p.2 < img.maxY := by
  rw [coords_eq] at hp
  obtain ⟨k, hk, hpk⟩ := List.mem_map.mp hp
  have hk' : k < height img * width img := List.mem_range.mp hk
  have hw : 0 < width img := by
    rcases Nat.eq_zero_or_pos (width img) with h | h
    · rw [h, Nat.mul_zero] at hk'; exact absurd hk' (Nat.not_lt_zero k)
    · exact h
  have h1 : k % width img < width img := Nat.mod_lt _ hw
  have h2 : k / width img < height img := (Nat.div_lt_iff_lt_mul hw).mpr hk'
  have hwdef : width img = (img.maxX - img.minX).toNat := rfl
  have hhdef : height img = (img.maxY - img.minY).toNat := rfl
  subst hpk
  dsimp only
  revert h1 h2
  generalize k % width img = a
  generalize k / width img = b
  intro h1 h2
  refine ⟨?_, ?_, ?_, ?_⟩ <;> omega

/-- Folding the wrapping accumulator step from a reduced start equals the
plain fold reduced at the end. -/
theorem foldl_addMod {α : Type} (M : Nat) (f : α → Nat) :
    ∀ (L : List α) (a : Nat),
      L.foldl (fun m p => (m + f p) % M) (a % M) = (L.foldl (fun m p => m + f p) a) % M := by
  intro L
  induction L with
  | nil => intro a; rfl
  | cons p L ih =>
    intro a
    simp only [List.foldl_cons]
    rw [Nat.mod_add_mod]
    exact ih (a + f p)

/-- The plain fold of additions is the start value plus a list sum. -/
theorem foldl_add_eq {α : Type} (f : α → Nat) :
    ∀ (L : List α) (a : Nat), L.foldl (fun m p => m + f p) a = a + (L.map f).sum := by
  intro L
  induction L with
  | nil => intro a; simp
  | cons p L ih =>
    intro a
    simp only [List.foldl_cons, List.map_cons, List.sum_cons, ih (a + f p)]
    omega

/-- Unfolds `computeMean` on a non-degenerate image whose pixel count fits a
uint32: the result is the wrapped red sum divided by the pixel count. -/
theorem computeMean_eq_of_small (img : Image) (h0 : 0 < numPix img)
    (h1 : numPix img < 2 ^ 32) :
    computeMean img = (redSum img % 2 ^ 32) / numPix img := by
  have hnp : numPix img = height img * width img := numPix_eq img
  have hw : 0 < width img := by
    rcases Nat.eq_zero_or_pos (width img) with h | h
    · rw [hnp, h, Nat.mul_zero] at h0; exact absurd h0 (Nat.lt_irrefl 0)
    · exact h
  have hh : 0 < height img := by
    rcases Nat.eq_zero_or_pos (height img) with h | h
    · rw [hnp, h, Nat.zero_mul] at h0; exact absurd h0 (Nat.lt_irrefl 0)
    · exact h
  have hwdef : width img = (img.maxX - img.minX).toNat := rfl
  have hhdef : height img = (img.maxY - img.minY).toNat := rfl
  have hprod : (img.maxX - img.minX) * (img.maxY - img.minY) = (numPix img : Int) := by
    have hx : (img.maxX - img.minX) = (width img : Int) := by omega
    have hy : (img.maxY - img.minY) = (height img : Int) := by omega
    rw [hx, hy, hnp]
    push_cast
    ring
  have hmod : ((img.maxX - img.minX) * (img.maxY - img.minY)) % (2 ^ 32 : Int)
      = (numPix img : Int) := by
    rw [hprod]
    apply Int.emod_eq_of_lt
    · exact Int.natCast_nonneg _
    · exact_mod_cast h1
  rw [computeMean]
  simp only [hmod, Int.toNat_natCast]
  rw [if_neg (by omega)]
  have hfold : (coords img).foldl (fun m p => (m + redAt img p.1 p.2) % 2 ^ 32) 0
      = redSum img % 2 ^ 32 := by
    have h00 : (0 : Nat) = 0 % 2 ^ 32 := rfl
    rw [h00, foldl_addMod (2 ^ 32) (fun p => redAt img p.1 p.2) (coords img) 0,
      foldl_add_eq, Nat.zero_add, redSum, reds]
  rw [hfold]

/-- A left shift of 1 by 64 or more positions vanishes in a uint64. -/
theorem shift_mod_zero {b : Nat} (hb : 64 ≤ b) : (1 <<< b) % 2 ^ 64 = 0 := by
  have h2 : (2 : Nat) ^ b = 2 ^ 64 * 2 ^ (b - 64) := by
    rw [← pow_add]
    congr 1
    omega
  rw [Nat.one_shiftLeft, h2, Nat.mul_mod_right]

/-- A left shift of 1 by fewer than 64 positions is exact in a uint64. -/
theorem shift_mod_id {b : Nat} (hb : b < 64) : (1 <<< b) % 2 ^ 64 = 2 ^ b := by
  rw [Nat.one_shiftLeft]
  exact Nat.mod_eq_of_lt (Nat.pow_lt_pow_right (by norm_num) hb)

/-- The value accumulator of the hash loop is the bitwise or of its start
value with the bits contributed by the remaining pixels. -/
theorem foldl_bitStep_eq (mean : Nat) :
    ∀ (rs : List Nat) (v b : Nat),
      (rs.foldl (bitStep mean) (v, b)).1 = v ||| bitsOf mean rs b := by
  intro rs
  induction rs with
  | nil => intro v b; simp [bitsOf]
  | cons r rs ih =>
    intro v b
    simp only [List.foldl_cons, bitStep, bitsOf]
    by_cases hr : r > mean
    · simp only [if_pos hr]
      rw [ih, Nat.lor_assoc]
    · simp only [if_neg hr]
      rw [ih, Nat.zero_or]

/-- Unfolds `computeHash` to the contributed bits of all pixels. -/
theorem computeHash_eq (img : Image) (mean : Nat) :
    computeHash img mean = bitsOf mean (reds img) 0 := by
  rw [computeHash]
  have hmap : (coords img).foldl (fun acc p => bitStep mean acc (redAt img p.1 p.2)) (0, 0)
      = (reds img).foldl (bitStep mean) (0, 0) := by
    rw [reds, List.foldl_map]
  rw [hmap, foldl_bitStep_eq, Nat.zero_or]

/-- Bit `j` of the contribution of one pixel whose bit position is `b`. -/
theorem testBit_contrib (mean r b j : Nat) :
    ((if r > mean then (1 <<< b) % 2 ^ 64 else 0).testBit j = true) ↔
      (j = b ∧ j < 64 ∧ mean < r) := by
  by_cases hr : r > mean
  · rw [if_pos hr]
    by_cases hb64 : b < 64
    · rw [shift_mod_id hb64, Nat.testBit_two_pow]
      simp only [decide_eq_true_eq]
      constructor
      · intro h; exact ⟨h.symm, by omega, hr⟩
      · intro h; exact h.1.symm
    · rw [shift_mod_zero (by omega)]
      simp only [Nat.zero_testBit, Bool.false_eq_true, false_iff]
      rintro ⟨rfl, h2, -⟩
      omega
  · rw [if_neg hr]
    simp only [Nat.zero_testBit, Bool.false_eq_true, false_iff]
    rintro ⟨-, -, h3⟩
    exact hr h3

/-- Bit `j` of the bits contributed from position `b` on: it is set exactly
when some remaining pixel sits at position `j`, the position is one of the 64
hash bits, and the intensity of that pixel strictly exceeds the mean. -/
theorem testBit_bitsOf (mean : Nat) :
    ∀ (rs : List Nat) (b j : Nat), b + rs.length ≤ 2 ^ 64 →
      ((bitsOf mean rs b).testBit j = true ↔
        (b ≤ j ∧ j < b + rs.length ∧ j < 64 ∧ mean < rs.getD (j - b) 0)) := by
  intro rs
  induction rs with
  | nil =>
    intro b j _
    simp only [bitsOf, Nat.zero_testBit, List.length_nil, Bool.false_eq_true, false_iff]
    rintro ⟨h1, h2, -, -⟩
    omega
  | cons r rs ih =>
    intro b j hb
    simp only [List.length_cons] at hb
    by_cases hbM : b + 1 = 2 ^ 64
    · have hrsnil : rs = [] := List.length_eq_zero.mp (by omega)
      subst hrsnil
      have hs : (1 <<< b) % 2 ^ 64 = 0 := shift_mod_zero (by omega)
      simp only [bitsOf, hs, ite_self, Nat.zero_or, Nat.or_zero, Nat.zero_testBit,
        List.length_cons, List.length_nil, Bool.false_eq_true, false_iff]
      rintro ⟨h1, h2, h3, -⟩
      omega
    · have hmod : (b + 1) % 2 ^ 64 = b + 1 := Nat.mod_eq_of_lt (by omega)
      have ihb := ih (b + 1) j (by omega)
      simp only [bitsOf, hmod, Nat.testBit_lor, Bool.or_eq_true, List.length_cons]
      rw [ihb, testBit_contrib]
      constructor
      · rintro (⟨rfl, h64, hr⟩ | ⟨h1, h2, h64, hgt⟩)
        · refine ⟨Nat.le_refl j, by omega, h64, ?_⟩
          rw [Nat.sub_self, List.getD_cons_zero]
          exact hr
        · refine ⟨by omega, by omega, h64, ?_⟩
          rw [show j - b = (j - (b + 1)) + 1 by omega, List.getD_cons_succ]
          exact hgt
      · rintro ⟨h1, h2, h64, hgt⟩
        by_cases hjb : j = b
        · subst hjb
          left
          rw [Nat.sub_self, List.getD_cons_zero] at hgt
          exact ⟨rfl, h64, hgt⟩
        · right
          refine ⟨by omega, by omega, h64, ?_⟩
          rw [show j - b = (j - (b + 1)) + 1 by omega, List.getD_cons_succ] at hgt
          exact hgt

/-- The pixels in visit order and the hash bit positions: bit `j` of the hash
is set exactly when the `j`-th visited pixel exists, `j` is one of the 64 bit
positions, and the intensity of that pixel strictly exceeds the mean. -/
theorem testBit_computeHash (img : Image) (mean j : Nat) (hlen : numPix img ≤ 2 ^ 64) :
    ((computeHash img mean).testBit j = true ↔
      (j < numPix img ∧ j < 64 ∧ mean < (reds img).getD j 0)) := by
  have hlr : (reds img).length = numPix img := by rw [reds, List.length_map]; rfl
  rw [computeHash_eq, testBit_bitsOf mean (reds img) 0 j (by omega)]
  simp only [Nat.zero_le, true_and, Nat.zero_add, Nat.sub_zero, hlr]

/-- Width of an 8-wide image. -/
theorem width_of_8 {img : Image} (hx : img.maxX = img.minX + 8) : width img = 8 := by
  have h : width img = (img.maxX - img.minX).toNat := rfl
  omega

/-- Height of an 8-tall image. -/
theorem height_of_8 {img : Image} (hy : img.maxY = img.minY + 8) : height img = 8 := by
  have h : height img = (img.maxY - img.minY).toNat := rfl
  omega

/-- An 8×8 image has 64 visited pixels. -/
theorem numPix_of_8 {img : Image} (hx : img.maxX = img.minX + 8)
    (hy : img.maxY = img.minY + 8) : numPix img = 64 := by
  rw [numPix_eq, width_of_8 hx, height_of_8 hy]

/-- On an 8×8 image, the `j`-th visited red intensity sits at column `j % 8`
and row `j / 8`. -/
theorem getD_reds8 {img : Image} (hx : img.maxX = img.minX + 8)
    (hy : img.maxY = img.minY + 8) {j : Nat} (hj : j < 64) :
    (reds img).getD j 0
      = redAt img (img.minX + ((j % 8 : Nat) : Int)) (img.minY + ((j / 8 : Nat) : Int)) := by
  rw [reds_eq, width_of_8 hx, height_of_8 hy]
  have hlen : j < ((List.range (8 * 8)).map
      (fun k => redAt img (img.minX + ((k % 8 : Nat) : Int))
        (img.minY + ((k / 8 : Nat) : Int)))).length := by
    rw [List.length_map, List.length_range]
    omega
  rw [List.getD_eq_getElem _ _ hlen, List.getElem_map, List.getElem_range]

/-- No bit is contributed when no remaining intensity exceeds the mean. -/
theorem bitsOf_eq_zero (mean : Nat) :
    ∀ (rs : List Nat) (b : Nat), (∀ r ∈ rs, r ≤ mean) → bitsOf mean rs b = 0 := by
  intro rs
  induction rs with
  | nil => intro b _; rfl
  | cons r rs ih =>
    intro b hle
    simp only [bitsOf]
    rw [if_neg (by have := hle r (List.mem_cons_self r rs); omega), Nat.zero_or]
    exact ih _ (fun x hx => hle x (List.mem_cons_of_mem r hx))

/-- Pixels whose bit position is 64 or more contribute nothing. -/
theorem bitsOf_high (mean : Nat) :
    ∀ (rs : List Nat) (b : Nat), b + rs.length ≤ 2 ^ 64 → 64 ≤ b →
      bitsOf mean rs b = 0 := by
  intro rs
  induction rs with
  | nil => intro b _ _; rfl
  | cons r rs ih =>
    intro b hb h64
    simp only [List.length_cons] at hb
    simp only [bitsOf, shift_mod_zero h64, ite_self, Nat.zero_or]
    by_cases hbM : b + 1 = 2 ^ 64
    · have hrsnil : rs = [] := List.length_eq_zero.mp (by omega)
      subst hrsnil
      rfl
    · rw [Nat.mod_eq_of_lt (by omega)]
      exact ih (b + 1) (by omega) (by omega)

/-- Only the pixels at positions before bit 64 can contribute. -/
theorem bitsOf_take (mean : Nat) :
    ∀ (rs : List Nat) (b : Nat), b + rs.length ≤ 2 ^ 64 →
      bitsOf mean rs b = bitsOf mean (rs.take (64 - b)) b := by
  intro rs
  induction rs with
  | nil => intro b _; rw [List.take_nil]
  | cons r rs ih =>
    intro b hb
    simp only [List.length_cons] at hb
    by_cases h64 : 64 ≤ b
    · rw [show 64 - b = 0 by omega, List.take_zero,
        bitsOf_high mean (r :: rs) b (by simp only [List.length_cons]; omega) h64]
      rfl
    · push_neg at h64
      rw [show 64 - b = (64 - (b + 1)) + 1 by omega, List.take_succ_cons]
      simp only [bitsOf]
      rw [Nat.mod_eq_of_lt (show b + 1 < 2 ^ 64 by omega), ih (b + 1) (by omega)]

/-- Images agreeing on the bounding rectangle and on the red channel of every
pixel produce the same mean and the same hash: the green, blue and alpha
channels are never consulted. -/
theorem mean_hash_eq_of_red_eq (A B : Image) (h1 : B.minX = A.minX) (h2 : B.maxX = A.maxX)
    (h3 : B.minY = A.minY) (h4 : B.maxY = A.maxY)
    (hred : ∀ x y : Int, (B.At x y).r = (A.At x y).r) :
    computeMean B = computeMean A ∧ ∀ mean, computeHash B mean = computeHash A mean := by
  have hco : coords B = coords A := by
    rw [coords, coords, width, width, height, height, h1, h2, h3, h4]
  have hredAt : ∀ x y, redAt B x y = redAt A x y := by
    intro x y
    rw [redAt, redAt, hred]
  constructor
  · have hfold : (coords A).foldl (fun m p => (m + redAt B p.1 p.2) % 2 ^ 32) 0
        = (coords A).foldl (fun m p => (m + redAt A p.1 p.2) % 2 ^ 32) 0 :=
      List.foldl_ext _ _ 0 (fun m p _ => by rw [hredAt])
    rw [computeMean, computeMean, h1, h2, h3, h4, hco, hfold]
  · intro mean
    have hfold : (coords A).foldl (fun acc p => bitStep mean acc (redAt B p.1 p.2)) (0, 0)
        = (coords A).foldl (fun acc p => bitStep mean acc (redAt A p.1 p.2)) (0, 0) :=
      List.foldl_ext _ _ (0, 0) (fun acc p _ => by rw [hredAt])
    rw [computeHash, computeHash, hco, hfold]

/-- Images agreeing on the bounding rectangle and pixel-for-pixel inside it
produce the same mean and the same hash: pixels outside the rectangle are
never consulted. -/
theorem mean_hash_eq_of_grid_eq (A B : Image) (h1 : B.minX = A.minX) (h2 : B.maxX = A.maxX)
    (h3 : B.minY = A.minY) (h4 : B.maxY = A.maxY)
    (hpix : ∀ x y : Int, A.minX ≤ x → x < A.maxX → A.minY ≤ y → y < A.maxY →
      B.At x y = A.At x y) :
    computeMean B = computeMean A ∧ ∀ mean, computeHash B mean = computeHash A mean := by
  have hco : coords B = coords A := by
    rw [coords, coords, width, width, height, height, h1, h2, h3, h4]
  have hredAt : ∀ p ∈ coords A, redAt B p.1 p.2 = redAt A p.1 p.2 := by
    intro p hp
    obtain ⟨ha, hb', hc, hd⟩ := mem_coords hp
    rw [redAt, redAt, hpix p.1 p.2 ha hb' hc hd]
  constructor
  · have hfold : (coords A).foldl (fun m p => (m + redAt B p.1 p.2) % 2 ^ 32) 0
        = (coords A).foldl (fun m p => (m + redAt A p.1 p.2) % 2 ^ 32) 0 :=
      List.foldl_ext _ _ 0 (fun m p hp => by rw [hredAt p hp])
    rw [computeMean, computeMean, h1, h2, h3, h4, hco, hfold]
  · intro mean
    have hfold : (coords A).foldl (fun acc p => bitStep mean acc (redAt B p.1 p.2)) (0, 0)
        = (coords A).foldl (fun acc p => bitStep mean acc (redAt A p.1 p.2)) (0, 0) :=
      List.foldl_ext _ _ (0, 0) (fun acc p hp => by rw [hredAt p hp])
    rw [computeHash, computeHash, hco, hfold]

/-- Red intensities of an image whose in-bounds pixels are 16-bit are bounded
by 65535 on the visit list. -/
theorem reds_le_of_16bit {img : Image}
    (h16 : ∀ x y : Int, img.minX ≤ x → x < img.maxX → img.minY ≤ y → y < img.maxY →
      redAt img x y ≤ 65535) :
    ∀ r ∈ reds img, r ≤ 65535 := by
  intro r hr
  obtain ⟨p, hp, rfl⟩ := List.mem_map.mp hr
  obtain ⟨ha, hb', hc, hd⟩ := mem_coords hp
  exact h16 p.1 p.2 ha hb' hc hd

/-- Degenerate rectangles are visited by no loop iteration. -/
theorem coords_nil_of_degenerate {img : Image}
    (h : img.maxX - img.minX = 0 ∨ img.maxY - img.minY = 0) : coords img = [] := by
  rw [coords_eq]
  have h1 : width img = (img.maxX - img.minX).toNat := rfl
  have h2 : height img = (img.maxY - img.minY).toNat := rfl
  have hw : height img * width img = 0 := by
    rcases h with h | h
    · have hz : width img = 0 := by omega
      rw [hz, Nat.mul_zero]
    · have hz : height img = 0 := by omega
      rw [hz, Nat.zero_mul]
  rw [hw, List.range_zero, List.map_nil]

/-- Claim C4: an image whose bounding rectangle has zero width or zero height
yields mean 0 and hash 0, as a defined numeric result. -/
theorem zero_area_mean_hash_zero (img : Image)
    (h : img.maxX - img.minX = 0 ∨ img.maxY - img.minY = 0) :
    computeMean img = 0 ∧ computeHash img (computeMean img) = 0 := by
  have hmean : computeMean img = 0 := by
    rw [computeMean]
    have hc : (((img.maxX - img.minX) * (img.maxY - img.minY)) % (2 ^ 32 : Int)).toNat = 0 := by
      rcases h with h | h
      · rw [h, Int.zero_mul]
        rfl
      · rw [h, Int.mul_zero]
        rfl
    simp only [hc]
    norm_num
  refine ⟨hmean, ?_⟩
  rw [computeHash, coords_nil_of_degenerate h]
  rfl

/-- Witness for claim C4 at a concrete zero-width image. -/
theorem zero_area_mean_hash_zero_witness :
    computeMean emptyImg = 0 ∧ computeHash emptyImg (computeMean emptyImg) = 0 :=
  zero_area_mean_hash_zero emptyImg (Or.inl (by decide))

/-- Claim C2: on the 8×8 checkerboard of intensities 0 and 65535 the mean is
exactly 32767 and the hash sets exactly the bits at the row-major positions
of the 65535 cells. -/
theorem checkerboard_mean_hash :
    computeMean cb = 32767 ∧
    computeHash cb (computeMean cb) = 0x55AA55AA55AA55AA ∧
    (List.range 64).all (fun i =>
      (computeHash cb (computeMean cb)).testBit i
        == decide (redAt cb ((i % 8 : Nat) : Int) ((i / 8 : Nat) : Int) = 65535)) = true := by
  decide

/-- Claim C5: on an 8×8 image the hash visits pixels in row-major order with
a per-pixel bit counter, so bit `i` reflects the pixel at column `i % 8` and
row `i / 8` from the minimum corner; bit 0 is the pixel at the minimum corner
and bit 63 the pixel before the maximum corner. -/
theorem hash_rowMajor_bits (img : Image) (mean : Nat)
    (hx : img.maxX = img.minX + 8) (hy : img.maxY = img.minY + 8) :
    ∀ i : Nat, i < 64 →
      (computeHash img mean).testBit i
        = decide (mean < redAt img (img.minX + ((i % 8 : Nat) : Int))
            (img.minY + ((i / 8 : Nat) : Int))) := by
  intro i hi
  have hn : numPix img = 64 := numPix_of_8 hx hy
  have hchar := testBit_computeHash img mean i (by rw [hn]; norm_num)
  rw [hn, getD_reds8 hx hy hi] at hchar
  by_cases hgt : mean < redAt img (img.minX + ((i % 8 : Nat) : Int))
      (img.minY + ((i / 8 : Nat) : Int))
  · rw [decide_eq_true hgt]
    exact hchar.mpr ⟨hi, hi, hgt⟩
  · rw [decide_eq_false hgt]
    cases htb : (computeHash img mean).testBit i
    · rfl
    · exact absurd (hchar.mp htb).2.2 hgt

/-- Witness for claim C5 at the checkerboard, bit 9. -/
theorem hash_rowMajor_bits_witness :
    (computeHash cb 32767).testBit 9
      = decide ((32767 : Nat) < redAt cb (cb.minX + ((9 % 8 : Nat) : Int))
          (cb.minY + ((9 / 8 : Nat) : Int))) :=
  hash_rowMajor_bits cb 32767 (by decide) (by decide) 9 (by decide)

/-- Claim C6: a bit of the hash is set exactly when the intensity of its
pixel strictly exceeds the supplied mean; a pixel whose intensity equals the
mean leaves its bit unset. -/
theorem hash_bit_iff_gt_mean (img : Image) (mean i : Nat)
    (h64 : numPix img ≤ 2 ^ 64) (hi : i < numPix img) (hi64 : i < 64) :
    ((computeHash img mean).testBit i = true ↔ (reds img).getD i 0 > mean)
    ∧ ((reds img).getD i 0 = mean → (computeHash img mean).testBit i = false) := by
  have hchar := testBit_computeHash img mean i h64
  constructor
  · constructor
    · intro h
      exact (hchar.mp h).2.2
    · intro h
      exact hchar.mpr ⟨hi, hi64, h⟩
  · intro heq
    cases htb : (computeHash img mean).testBit i
    · rfl
    · have hgt := (hchar.mp htb).2.2
      omega

/-- Witness for claim C6 at the checkerboard, bit 9. -/
theorem hash_bit_iff_gt_mean_witness :
    (((computeHash cb 32767).testBit 9 = true ↔ (reds cb).getD 9 0 > 32767)
      ∧ ((reds cb).getD 9 0 = 32767 → (computeHash cb 32767).testBit 9 = false)) :=
  hash_bit_iff_gt_mean cb 32767 9 (by decide) (by decide) (by decide)

/-- Claim C3: on an 8×8 image with 16-bit intensities, hashing with the mean
of the same image never sets all 64 bits: not every pixel can strictly exceed
the truncated mean of all pixels. -/
theorem hash_popCount_le_63 (img : Image)
    (hx : img.maxX = img.minX + 8) (hy : img.maxY = img.minY + 8)
    (h16 : ∀ x y : Int, img.minX ≤ x → x < img.maxX → img.minY ≤ y → y < img.maxY →
      redAt img x y ≤ 65535) :
    popCount64 (computeHash img (computeMean img)) ≤ 63 := by
  have hn : numPix img = 64 := numPix_of_8 hx hy
  have hlr : (reds img).length = numPix img := by rw [reds, List.length_map]; rfl
  have hsum_le : redSum img ≤ 64 * 65535 := by
    have h1 := List.sum_le_card_nsmul (reds img) 65535 (reds_le_of_16bit h16)
    rw [hlr, hn] at h1
    rw [redSum]
    simpa using h1
  have hmean : computeMean img = redSum img / 64 := by
    rw [computeMean_eq_of_small img (by omega) (by omega), hn,
      Nat.mod_eq_of_lt (by omega)]
  by_contra hcon
  push_neg at hcon
  have hub : (List.range 64).countP
      (fun i => (computeHash img (computeMean img)).testBit i) ≤ 64 := by
    have h := List.countP_le_length
      (p := fun i => (computeHash img (computeMean img)).testBit i) (l := List.range 64)
    simpa using h
  have heq64 : (List.range 64).countP
      (fun i => (computeHash img (computeMean img)).testBit i) = 64 := by
    rw [popCount64] at hcon
    omega
  have hall := List.countP_eq_length.mp (by rw [heq64, List.length_range])
  have hgt : ∀ r ∈ reds img, computeMean img + 1 ≤ r := by
    intro r hrm
    obtain ⟨k, hk, hrk⟩ := List.mem_iff_getElem.mp hrm
    have hk64 : k < 64 := by rw [hlr, hn] at hk; exact hk
    have htb := hall k (List.mem_range.mpr hk64)
    have hch := (testBit_computeHash img (computeMean img) k (by rw [hn]; norm_num)).mp htb
    have hgd : (reds img).getD k 0 = r := by
      rw [List.getD_eq_getElem _ _ hk, hrk]
    rw [hgd] at hch
    omega
  have hlb := List.card_nsmul_le_sum (reds img) (computeMean img + 1) hgt
  rw [hlr, hn] at hlb
  simp only [smul_eq_mul] at hlb
  have hlb' : 64 * (computeMean img + 1) ≤ redSum img := by
    rw [redSum]
    exact hlb
  have hdiv : computeMean img + 1 ≤ redSum img / 64 :=
    (Nat.le_div_iff_mul_le (by norm_num)).mpr (by omega)
  omega

/-- Witness for claim C3 at the uniform intensity-7 image. -/
theorem hash_popCount_le_63_witness :
    popCount64 (computeHash uni7 (computeMean uni7)) ≤ 63 :=
  hash_popCount_le_63 uni7 (by decide) (by decide) (fun x y _ _ _ _ => by simp [redAt, uni7])

/-- Claim C7 counterexample: the 65538-pixel image with every red intensity
65535 is non-empty and uniform, yet its computed mean is not 65535: the
uint32 accumulator wraps, so the claim fails as stated for every image. -/
theorem uniform_mean_counterexample :
    0 < numPix bigU ∧ computeMean bigU ≠ 65535 := by
  have hnp : numPix bigU = 65538 := by rw [numPix_eq]; rfl
  have hall : ∀ x ∈ reds bigU, x = 65535 := by
    intro x hx
    obtain ⟨p, hp, rfl⟩ := List.mem_map.mp hx
    rfl
  have hlr : (reds bigU).length = numPix bigU := by rw [reds, List.length_map]; rfl
  have hsum : redSum bigU = 65538 * 65535 := by
    rw [redSum, List.sum_eq_card_nsmul (reds bigU) 65535 hall, hlr, hnp, smul_eq_mul]
  have hmean : computeMean bigU = 0 := by
    rw [computeMean_eq_of_small bigU (by omega) (by omega), hsum, hnp]
    decide
  constructor
  · omega
  · omega

/-- Claim C7 amended: on a non-empty uniform image whose pixel count and
total intensity fit a uint32 (in particular any 8×8 image with 16-bit
intensities), the mean is exactly the uniform intensity and the hash is 0. -/
theorem uniform_mean_hash_amended (img : Image) (v : Nat)
    (huni : ∀ x y : Int, img.minX ≤ x → x < img.maxX → img.minY ≤ y → y < img.maxY →
      redAt img x y = v)
    (h0 : 0 < numPix img) (h1 : numPix img < 2 ^ 32) (h2 : numPix img * v < 2 ^ 32) :
    computeMean img = v ∧ computeHash img (computeMean img) = 0 := by
  have hall : ∀ x ∈ reds img, x = v := by
    intro x hx
    obtain ⟨p, hp, rfl⟩ := List.mem_map.mp hx
    obtain ⟨ha, hb', hc, hd⟩ := mem_coords hp
    exact huni p.1 p.2 ha hb' hc hd
  have hlr : (reds img).length = numPix img := by rw [reds, List.length_map]; rfl
  have hsum : redSum img = numPix img * v := by
    rw [redSum, List.sum_eq_card_nsmul (reds img) v hall, hlr, smul_eq_mul]
  have hmean : computeMean img = v := by
    rw [computeMean_eq_of_small img h0 h1, hsum, Nat.mod_eq_of_lt h2,
      Nat.mul_div_cancel_left v h0]
  refine ⟨hmean, ?_⟩
  rw [computeHash_eq, hmean]
  exact bitsOf_eq_zero v (reds img) 0 (fun r hr => Nat.le_of_eq (hall r hr))

/-- Witness for the amended claim C7 at the uniform intensity-7 image. -/
theorem uniform_mean_hash_amended_witness :
    computeMean uni7 = 7 ∧ computeHash uni7 (computeMean uni7) = 0 :=
  uniform_mean_hash_amended uni7 7 (fun x y _ _ _ _ => by simp [redAt, uni7])
    (by decide) (by decide) (by decide)

/-- Claim C8 counterexample: on the non-empty 65538-pixel image with every
red intensity 65535 the computed mean differs from the truncating division
of the intensity sum by the pixel count, because the uint32 accumulator
wraps; so the claim fails as stated for every non-empty image. -/
theorem mean_sum_div_counterexample :
    0 < numPix bigW ∧ computeMean bigW ≠ redSum bigW / numPix bigW := by
  have hnp : numPix bigW = 65538 := by rw [numPix_eq]; rfl
  have hall : ∀ x ∈ reds bigW, x = 65535 := by
    intro x hx
    obtain ⟨p, hp, rfl⟩ := List.mem_map.mp hx
    rfl
  have hlr : (reds bigW).length = numPix bigW := by rw [reds, List.length_map]; rfl
  have hsum : redSum bigW = 65538 * 65535 := by
    rw [redSum, List.sum_eq_card_nsmul (reds bigW) 65535 hall, hlr, hnp, smul_eq_mul]
  have hmean : computeMean bigW = 0 := by
    rw [computeMean_eq_of_small bigW (by omega) (by omega), hsum, hnp]
    decide
  constructor
  · omega
  · rw [hmean, hsum, hnp]
    decide

/-- Claim C8 amended: when the pixel count and the red sum fit a uint32 the
accumulator cannot wrap and the mean is the truncating division of the sum
by the pixel count; an 8×8 image with 16-bit intensities has red sum at most
64 × 65535, which fits a uint32. -/
theorem mean_eq_sum_div_amended (img : Image) :
    (0 < numPix img → numPix img < 2 ^ 32 → redSum img < 2 ^ 32 →
      computeMean img = redSum img / numPix img)
    ∧ (img.maxX = img.minX + 8 → img.maxY = img.minY + 8 →
        (∀ x y : Int, img.minX ≤ x → x < img.maxX → img.minY ≤ y → y < img.maxY →
          redAt img x y ≤ 65535) →
        redSum img ≤ 64 * 65535) := by
  constructor
  · intro h0 h1 h2
    rw [computeMean_eq_of_small img h0 h1, Nat.mod_eq_of_lt h2]
  · intro hx hy h16
    have hlr : (reds img).length = numPix img := by rw [reds, List.length_map]; rfl
    have h1 := List.sum_le_card_nsmul (reds img) 65535 (reds_le_of_16bit h16)
    rw [hlr, numPix_of_8 hx hy] at h1
    rw [redSum]
    simpa using h1

/-- Witness for the amended claim C8 at the uniform intensity-7 image. -/
theorem mean_eq_sum_div_amended_witness :
    computeMean uni7 = redSum uni7 / numPix uni7 ∧ redSum uni7 ≤ 64 * 65535 :=
  ⟨(mean_eq_sum_div_amended uni7).1 (by decide) (by decide) (by decide),
   (mean_eq_sum_div_amended uni7).2 (by decide) (by decide) (fun x y _ _ _ _ => by simp [redAt, uni7])⟩

/-- Claim C1: `Compute` reads only the red channel of the resized image, with
no luminance-weighted grayscale conversion in between: any image agreeing
with the resized image on bounds and red channel (green and blue arbitrary)
yields the hash `Compute` returns. -/
theorem compute_reads_only_red (resize : Image → Nat → Nat → Image) (img B : Image)
    (h1 : B.minX = (resize img 8 8).minX) (h2 : B.maxX = (resize img 8 8).maxX)
    (h3 : B.minY = (resize img 8 8).minY) (h4 : B.maxY = (resize img 8 8).maxY)
    (hred : ∀ x y : Int, (B.At x y).r = ((resize img 8 8).At x y).r) :
    Compute resize img = computeHash B (computeMean B) := by
  obtain ⟨hm, hh⟩ := mean_hash_eq_of_red_eq (resize img 8 8) B h1 h2 h3 h4 hred
  simp only [Compute, grayscale]
  rw [hm, hh]

/-- Witness for claim C1: altered green, blue and alpha channels leave the
hash unchanged. -/
theorem compute_reads_only_red_witness :
    Compute cropResize flat100 = computeHash flatG (computeMean flatG) :=
  compute_reads_only_red cropResize flat100 flatG rfl rfl rfl rfl (fun _ _ => rfl)

/-- Claim C9: two images that the resize collaborator reduces to the same
8×8 grid (same bounds, pixel-for-pixel equal inside them) hash identically,
regardless of the original dimensions. -/
theorem same_grid_same_hash (resize : Image → Nat → Nat → Image) (a b : Image)
    (h1 : (resize b 8 8).minX = (resize a 8 8).minX)
    (h2 : (resize b 8 8).maxX = (resize a 8 8).maxX)
    (h3 : (resize b 8 8).minY = (resize a 8 8).minY)
    (h4 : (resize b 8 8).maxY = (resize a 8 8).maxY)
    (hpix : ∀ x y : Int, (resize a 8 8).minX ≤ x → x < (resize a 8 8).maxX →
      (resize a 8 8).minY ≤ y → y < (resize a 8 8).maxY →
      (resize b 8 8).At x y = (resize a 8 8).At x y) :
    Compute resize a = Compute resize b := by
  obtain ⟨hm, hh⟩ := mean_hash_eq_of_grid_eq (resize a 8 8) (resize b 8 8) h1 h2 h3 h4 hpix
  simp only [Compute, grayscale]
  rw [hm, hh]

/-- Witness for claim C9 at two uniform images of different dimensions that
crop to the same 8×8 grid. -/
theorem same_grid_same_hash_witness :
    Compute cropResize flat8 = Compute cropResize flat100 :=
  same_grid_same_hash cropResize flat8 flat100 rfl rfl rfl rfl
    (fun _ _ _ _ _ _ => rfl)

/-- Claim C10: `computeHash` is total on images of any size, and because a
uint64 shift by 64 or more yields 0, only the first 64 pixels visited can
affect the result. -/
theorem hash_first64_pixels (img : Image) (mean : Nat) (hlen : numPix img ≤ 2 ^ 64) :
    computeHash img mean
      = (((coords img).take 64).foldl
          (fun acc p => bitStep mean acc (redAt img p.1 p.2)) (0, 0)).1 := by
  have hlr : (reds img).length = numPix img := by rw [reds, List.length_map]; rfl
  rw [computeHash_eq]
  have hrhs : (((coords img).take 64).foldl
      (fun acc p => bitStep mean acc (redAt img p.1 p.2)) (0, 0)).1
      = bitsOf mean ((reds img).take 64) 0 := by
    have hmap : ((coords img).take 64).foldl
        (fun acc p => bitStep mean acc (redAt img p.1 p.2)) (0, 0)
        = (((coords img).take 64).map (fun p => redAt img p.1 p.2)).foldl
            (bitStep mean) (0, 0) := by
      rw [List.foldl_map]
    rw [hmap, foldl_bitStep_eq, Nat.zero_or]
    congr 1
    rw [reds, List.map_take]
  rw [hrhs]
  have htake := bitsOf_take mean (reds img) 0 (by omega)
  simpa using htake

/-- Witness for claim C10 at a 72-pixel image. -/
theorem hash_first64_pixels_witness :
    computeHash tall 5
      = (((coords tall).take 64).foldl
          (fun acc p => bitStep 5 acc (redAt tall p.1 p.2)) (0, 0)).1 :=
  hash_first64_pixels tall 5 (by decide)

end Imghash
